import Mathlib

/-!
Verification of the coincidence-detection engine of `pylal/ligolw_thinca.py`
(repository `pannarale/pycbc-pylal`).

Shallow embedding conventions:

* Event end times are GPS times held as a `(seconds, nanoseconds)` integer
  pair by `LIGOTimeGPS`; the patched `SnglInspiral.__cmp__` compares the pair
  lexicographically with `0 ≤ ns < 10^9`, which is order-isomorphic to the
  single integer `seconds * 10^9 + nanoseconds`.  We therefore model an end
  time as one integer number of nanoseconds (`ℤ`); all arithmetic on
  `LIGOTimeGPS` values is exact integer arithmetic, as in the source.
  The constant window `dt = 0.5` s of `get_coincs` is the exact
  `LIGOTimeGPS` value 500 000 000 ns.
* The ellipsoidal statistic `tools.XLALCalculateEThincaParameter` is an
  external C routine; it is modelled as an abstract parameter
  `calc : SnglInspiral → SnglInspiral → Option ℚ`, where `none` stands for
  the `ValueError` raised on non-convergence.
* Python's `bisect.bisect_left` / `bisect.bisect_right` are embedded by
  their exact loop (fuel-based structural recursion so that the kernel can
  evaluate them; the fuel `length + 1` always suffices because `hi - lo`
  strictly decreases).
* Python `dict`s keyed by instrument(-pair) are modelled as association
  lists; where the source builds a dict from updates with disjoint key sets
  (`replicate_threshold`) the association list is the concatenation.
-/

/-- A single-detector inspiral trigger.  `end_ns` is the end time in
nanoseconds (see module docstring); `ifo` the detector identifier; `id` an
opaque payload/identity used only to distinguish events. -/
structure SnglInspiral where
  ifo : String
  end_ns : ℤ
  id : ℕ
deriving DecidableEq, Repr, Inhabited

/-- `InspiralEventList.make_index`: sort events by end time (the source sorts
with `cmp(a.end_time, b.end_time) or cmp(a.end_time_ns, b.end_time_ns)`,
i.e. by the total-nanosecond key). -/
def make_index (l : List SnglInspiral) : List SnglInspiral :=
  l.insertionSort (fun a b => a.end_ns ≤ b.end_ns)

/-- The end time of the `i`-th event of a list (Python `a[mid]`; only
evaluated in-bounds by the bisection loop). -/
def keyAt (l : List SnglInspiral) (i : ℕ) : ℤ :=
  (l.getD i default).end_ns

/-- The loop shared by Python's `bisect_left` and `bisect_right`:
`while lo < hi: mid = (lo+hi)//2; if go_right(a[mid]): lo = mid+1 else: hi = mid`.
`p` is the "go right" test on the probed key. -/
def bisect_go (l : List SnglInspiral) (p : ℤ → Bool) : ℕ → ℕ → ℕ → ℕ
  | 0, lo, _ => lo
  | fuel + 1, lo, hi =>
    if lo < hi then
      let mid := (lo + hi) / 2
      if p (keyAt l mid) then bisect_go l p fuel (mid + 1) hi
      else bisect_go l p fuel lo mid
    else lo

/-- `bisect.bisect_left(self, x)`: go right while `a[mid] < x` (the patched
`SnglInspiral.__cmp__` compares the event's end time to the `LIGOTimeGPS`
argument). -/
def bisect_left (l : List SnglInspiral) (x : ℤ) : ℕ :=
  bisect_go l (fun k => decide (k < x)) (l.length + 1) 0 l.length

/-- `bisect.bisect_right(self, x)`: go right while `¬(x < a[mid])`. -/
def bisect_right (l : List SnglInspiral) (x : ℤ) : ℕ :=
  bisect_go l (fun k => decide (k ≤ x)) (l.length + 1) 0 l.length

/-- `InspiralEventList.get_coincs(event_a, e_thinca_parameter, comparefunc)`:
slice the sorted list between the two bisection points for
`end ± 0.5 s` and keep the events for which `comparefunc` returns `False`
(`False` = coincident, after the source's convention). -/
def get_coincs (l : List SnglInspiral) (event_a : SnglInspiral)
    (e_thinca_parameter : ℚ)
    (comparefunc : SnglInspiral → SnglInspiral → ℚ → Bool) :
    List SnglInspiral :=
  let «end» := event_a.end_ns
  let dt : ℤ := 500000000
  ((l.drop (bisect_left l («end» - dt))).take
      (bisect_right l («end» + dt) - bisect_left l («end» - dt))).filter
    (fun event_b => !comparefunc event_a event_b e_thinca_parameter)

/-- Modelled from the spec: the brute-force linear scan of §4.1/§8 —
"returns the subsequence of events whose end time lies within
`[reference_event.end_time - max_time_error, reference_event.end_time +
max_time_error]`" — stated as a filter over the whole list, for comparison
with the bisection-based `get_coincs`. -/
def get_coincident_candidates_spec (l : List SnglInspiral)
    (reference_event : SnglInspiral) (max_time_error : ℤ) :
    List SnglInspiral :=
  l.filter (fun e =>
    decide (reference_event.end_ns - max_time_error ≤ e.end_ns) &&
    decide (e.end_ns ≤ reference_event.end_ns + max_time_error))

/-- `inspiral_coinc_compare(a, b, e_thinca_parameter)`.  `ecalc` stands for
the external `tools.XLALCalculateEThincaParameter`; `none` models the
`ValueError` it raises when the test fails to converge, which the source
catches and turns into `True` ("not coincident"). -/
def inspiral_coinc_compare (ecalc : SnglInspiral → SnglInspiral → Option ℚ)
    (a b : SnglInspiral) (e_thinca_parameter : ℚ) : Bool :=
  match ecalc a b with
  | some stat => decide (stat > e_thinca_parameter)
  | none => true

/-- `iterutils.choices(l, 2)`: all ordered pairs `(l[i], l[j])` with
`i < j`, in list order. -/
def choices2 : List α → List (α × α)
  | [] => []
  | x :: xs => xs.map (fun y => (x, y)) ++ choices2 xs

/-- Lexicographic comparison of code-point lists: Python's string `<=`.
(The library order on `String` is not kernel-computable here, so the
comparison is spelled out; it agrees with Python's sort order.) -/
def chListLeB : List Char → List Char → Bool
  | [], _ => true
  | _ :: _, [] => false
  | c :: cs, d :: ds => if c = d then chListLeB cs ds else decide (c.toNat < d.toNat)

/-- Python's `<=` on strings (code-point lexicographic). -/
def strLeB (a b : String) : Bool := chListLeB a.data b.data

/-- `replicate_threshold(e_thinca_parameter, instruments)`: sort the
instruments, build the dict over ascending pairs, then update it with the
dict over descending pairs.  The two key sets are disjoint, so Python's
`dict.update` is concatenation of the two association lists. -/
def replicate_threshold (e_thinca_parameter : ℚ) (instruments : List String) :
    List ((String × String) × ℚ) :=
  let sorted := instruments.insertionSort fun a b => strLeB a b = true
  (choices2 sorted).map (fun pair => (pair, e_thinca_parameter)) ++
    (choices2 sorted.reverse).map (fun pair => (pair, e_thinca_parameter))

/-- A per-detector event list together with its currently applied offset
(`snglcoinc.EventList` state; `offset` defaults to zero at construction). -/
structure EventList where
  events : List SnglInspiral
  offset : ℤ
deriving DecidableEq, Repr, Inhabited

/-- `InspiralEventList._add_offset(delta)`: add an amount to the end time of
each event (src; named `_add_offset` there). -/
def add_offset (l : List SnglInspiral) (delta : ℤ) : List SnglInspiral :=
  l.map fun e => { e with end_ns := e.end_ns + delta }

/-- Modelled from the spec: the offset bookkeeping of
`snglcoinc.EventList.set_offset` is not under `src/`.  Per §3/§4.1 ("current
applied offset (default zero)", `apply_offset(delta)` "adds `delta` to every
event's stored end time"), setting the offset to `o` shifts every event by
the difference from the currently applied offset and records `o`; the
per-event shift is the src `_add_offset`. -/
def set_offset (l : EventList) (o : ℤ) : EventList :=
  ⟨add_offset l.events (o - l.offset), o⟩

/-- Modelled from the spec (§4.1): `apply_offset(delta)` adds `delta` to
every event's stored end time and accumulates it into the current applied
offset (bookkeeping not under `src/`; per-event shift is the src
`_add_offset`). -/
def apply_offset (l : EventList) (delta : ℤ) : EventList :=
  ⟨add_offset l.events delta, l.offset + delta⟩

/-- Modelled from the spec (§4.1): `remove_offset()` reverses the currently
applied offset, restoring original times. -/
def remove_offset (l : EventList) : EventList :=
  ⟨add_offset l.events (-l.offset), 0⟩

/-- Modelled from the spec: `snglcoinc.EventListDict.set_offsetdict` is not
under `src/`.  Per §4.5.d and §3 ("detectors absent from the mapping are not
relocated in that slide"), every instrument named in the offset dictionary
has its list's offset set to the named value; other lists are untouched. -/
def set_offsetdict (state : List (String × EventList))
    (offsetdict : List (String × ℤ)) : List (String × EventList) :=
  state.map fun il =>
    match offsetdict.lookup il.1 with
    | some o => (il.1, set_offset il.2 o)
    | none => il

/-- Modelled from the spec: `snglcoinc.EventListDict.remove_offsetdict` is
not under `src/`.  Per §4.5.f it returns every list to zero offset /
original times. -/
def remove_offsetdict (state : List (String × EventList)) :
    List (String × EventList) :=
  state.map fun il => (il.1, set_offset il.2 0)

/-- Per-pair threshold lookup used by the search (`thresholds[(i, j)]`). -/
def lookupThreshold (tbl : List ((String × String) × ℚ)) (i j : String) : ℚ :=
  (tbl.lookup (i, j)).getD 0

/-- Modelled from the spec: the pairwise admission test of the N-Tuple
Search (§4.4): the candidate must lie in the other event's fixed 0.5 s time
window (the window of `get_coincs`) and the Coincidence Predicate — the
comparefunc returning `False` — must hold at the pair's threshold. -/
def pairCoinc (cmpf : SnglInspiral → SnglInspiral → ℚ → Bool)
    (tbl : List ((String × String) × ℚ))
    (x y : String × SnglInspiral) : Bool :=
  decide (x.2.end_ns - y.2.end_ns ≤ 500000000) &&
    decide (y.2.end_ns - x.2.end_ns ≤ 500000000) &&
    !cmpf x.2 y.2 (lookupThreshold tbl x.1 y.1)

/-- All subsets (as sublists) of a list. -/
def subsetsOf : List α → List (List α)
  | [] => [[]]
  | x :: xs => subsetsOf xs ++ (subsetsOf xs).map (x :: ·)

/-- Modelled from the spec (§4.4): grow tuples one detector list at a time,
admitting an event only if it passes `pairCoinc` against every event already
in the tuple, so that every emitted tuple is pairwise consistent. -/
def tuplesOver (cmpf : SnglInspiral → SnglInspiral → ℚ → Bool)
    (tbl : List ((String × String) × ℚ)) :
    List (String × List SnglInspiral) → List (List (String × SnglInspiral))
  | [] => [[]]
  | (i, es) :: rest =>
    (tuplesOver cmpf tbl rest).flatMap fun t =>
      (es.filter fun e => t.all fun jf => pairCoinc cmpf tbl (i, e) jf).map
        fun e => (i, e) :: t

/-- Modelled from the spec: `snglcoinc.CoincidentNTuples` is not under
`src/`.  Per §4.4, enumerate, for every subset of at least two participating
detectors, every choice of one event per chosen detector list such that all
pairs pass the window test and the Coincidence Predicate at the pair's
threshold.  (The spec leaves the maximal-versus-sub-clique emission policy
open, §9; the claims below constrain only pairwise consistency and the
accounting of accepted tuples, which do not depend on that policy.) -/
def CoincidentNTuples (state : List (String × EventList))
    (cmpf : SnglInspiral → SnglInspiral → ℚ → Bool)
    (instruments : List String) (tbl : List ((String × String) × ℚ)) :
    List (List (String × SnglInspiral)) :=
  let lists := instruments.filterMap fun i =>
    (state.lookup i).map fun l => (i, l.events)
  ((subsetsOf lists).filter fun s => 2 ≤ s.length).flatMap (tuplesOver cmpf tbl)

/-- One row appended by `coinc_tables.append_coinc(process_id,
time_slide_id, ntuple)`. -/
structure CoincRecord where
  process_id : ℕ
  time_slide_id : ℕ
  events : List (String × SnglInspiral)
deriving DecidableEq, Repr, Inhabited

/-- The observable outcome of one iteration of the time-slide loop:
whether the slide was processed, the threshold table handed to the search,
the records appended, and the event-list state when the iteration ended. -/
structure SlideOutcome where
  time_slide_id : ℕ
  offsets : List (String × ℤ)
  processed : Bool
  thresholds_used : List ((String × String) × ℚ)
  records : List CoincRecord
  state_after : List (String × EventList)
deriving DecidableEq, Repr, Inhabited

/-- One iteration of the time-slide loop of `ligolw_thinca` (src lines
270–309): compute `offset_instruments` from the slide's offset dictionary,
skip (without touching any state) when fewer than two instruments are named
or one of them is unavailable, otherwise apply the offsets, run the search
with the pre-computed threshold table, and append one record per tuple
accepted by `ntuple_comparefunc`. -/
def doSlide (process_id : ℕ) (thresholds : List ((String × String) × ℚ))
    (event_comparefunc : SnglInspiral → SnglInspiral → ℚ → Bool)
    (ntuple_comparefunc : List (String × SnglInspiral) → Bool)
    (avail_instruments : List String) (state : List (String × EventList))
    (slide : ℕ × List (String × ℤ)) :
    List (String × EventList) × SlideOutcome :=
  let offset_instruments := (slide.2.map Prod.fst).dedup
  if offset_instruments.length < 2 then
    (state, ⟨slide.1, slide.2, false, [], [], state⟩)
  else if !(offset_instruments.all fun i => avail_instruments.contains i) then
    (state, ⟨slide.1, slide.2, false, [], [], state⟩)
  else
    let state2 := set_offsetdict state slide.2
    let ntuples :=
      CoincidentNTuples state2 event_comparefunc offset_instruments thresholds
    let records := (ntuples.filter fun t => !ntuple_comparefunc t).map
      fun t => ⟨process_id, slide.1, t⟩
    (state2, ⟨slide.1, slide.2, true, thresholds, records, state2⟩)

/-- The time-slide loop of `ligolw_thinca`, threading the event-list state
and collecting one `SlideOutcome` per slide. -/
def runSlides (process_id : ℕ) (thresholds : List ((String × String) × ℚ))
    (event_comparefunc : SnglInspiral → SnglInspiral → ℚ → Bool)
    (ntuple_comparefunc : List (String × SnglInspiral) → Bool)
    (avail_instruments : List String) :
    List (String × EventList) → List (ℕ × List (String × ℤ)) →
      List (String × EventList) × List SlideOutcome
  | state, [] => (state, [])
  | state, slide :: rest =>
    let so := doSlide process_id thresholds event_comparefunc
      ntuple_comparefunc avail_instruments state slide
    let r := runSlides process_id thresholds event_comparefunc
      ntuple_comparefunc avail_instruments so.1 rest
    (r.1, so.2 :: r.2)

/-- The event-list dictionary built before the loop: one indexed list per
instrument of the input, at zero offset (`snglcoinc.make_eventlists` loads
the events, out of scope; the indexing is the src `make_index`). -/
def initState (eventdict : List (String × List SnglInspiral)) :
    List (String × EventList) :=
  eventdict.map fun ie => (ie.1, ⟨make_index ie.2, 0⟩)

/-- `ligolw_thinca(...)` (src lines 229–321): build the event lists, compute
`avail_instruments`, replicate the e-thinca parameter over
`avail_instruments` *once before the loop*, iterate over the time slides,
and remove the time offsets *once after the loop*.  Returns the final
event-list state and the per-slide outcomes. -/
def ligolw_thinca (process_id : ℕ)
    (eventdict : List (String × List SnglInspiral))
    (time_slides : List (ℕ × List (String × ℤ)))
    (e_thinca_parameter : ℚ)
    (event_comparefunc : SnglInspiral → SnglInspiral → ℚ → Bool)
    (ntuple_comparefunc : List (String × SnglInspiral) → Bool) :
    List (String × EventList) × List SlideOutcome :=
  let eventlists := initState eventdict
  let avail_instruments := eventdict.map Prod.fst
  let thresholds := replicate_threshold e_thinca_parameter avail_instruments
  let r := runSlides process_id thresholds event_comparefunc
    ntuple_comparefunc avail_instruments eventlists time_slides
  (remove_offsetdict r.1, r.2)

/-- Sample comparefunc accepting every pair (returns `False`, i.e.
coincident); used as a concrete input in witnesses. -/
def cmpNever : SnglInspiral → SnglInspiral → ℚ → Bool := fun _ _ _ => false

/-- Sample rejection function vetoing nothing; used as a concrete input in
witnesses. -/
def rejNever : List (String × SnglInspiral) → Bool := fun _ => false

/-- The list order required by `make_index` (ascending end time). -/
abbrev EndOrdered (l : List SnglInspiral) : Prop :=
  l.Sorted fun a b => a.end_ns ≤ b.end_ns

lemma keyAt_eq_getElem {l : List SnglInspiral} {i : ℕ} (h : i < l.length) :
    keyAt l i = l[i].end_ns := by
  unfold keyAt
  rw [List.getD_eq_getElem l default h]

lemma end_ns_mono {l : List SnglInspiral} (hs : EndOrdered l) {i j : ℕ}
    (hij : i ≤ j) (hj : j < l.length) : keyAt l i ≤ keyAt l j := by
  rcases lt_or_eq_of_le hij with h | rfl
  · have hi : i < l.length := lt_trans h hj
    rw [keyAt_eq_getElem hi, keyAt_eq_getElem hj]
    simpa using hs.rel_get_of_lt (a := ⟨i, hi⟩) (b := ⟨j, hj⟩) h
  · exact le_refl _

/-- A list whose first `k` elements satisfy `p` and whose remaining elements
do not has `countP p = k`. -/
lemma countP_partition {α : Type} (p : α → Bool) :
    ∀ (l : List α) (k : ℕ), k ≤ l.length →
      (∀ i, (h : i < l.length) → i < k → p (l[i]) = true) →
      (∀ i, (h : i < l.length) → k ≤ i → p (l[i]) = false) →
      l.countP p = k := by
  intro l
  induction l with
  | nil =>
    intro k hk _ _
    simp only [List.length_nil, Nat.le_zero] at hk
    simp [hk]
  | cons a l ih =>
    intro k hk h1 h2
    cases k with
    | zero =>
      have ha : p a = false := h2 0 (by simp) (Nat.zero_le _)
      have hl : l.countP p = 0 := by
        apply ih 0 (Nat.zero_le _) (by omega)
        intro i h _
        have := h2 (i + 1) (by simpa using Nat.succ_lt_succ h) (by omega)
        simpa using this
      simp [List.countP_cons, ha, hl]
    | succ k =>
      have ha : p a = true := h1 0 (by simp) (Nat.succ_pos _)
      have hl : l.countP p = k := by
        apply ih k (by simpa using hk)
        · intro i h hik
          have := h1 (i + 1) (by simpa using Nat.succ_lt_succ h) (by omega)
          simpa using this
        · intro i h hik
          have := h2 (i + 1) (by simpa using Nat.succ_lt_succ h) (by omega)
          simpa using this
      simp [List.countP_cons, ha, hl]

/-- Correctness of the shared bisection loop: on a sorted list, with a
downward-closed "go right" test and enough fuel, the loop computes the
number of events whose key passes the test. -/
lemma bisect_go_eq_countP (l : List SnglInspiral) (p : ℤ → Bool)
    (hmono : ∀ k1 k2 : ℤ, k1 ≤ k2 → p k2 = true → p k1 = true)
    (hs : EndOrdered l) :
    ∀ (fuel lo hi : ℕ), hi - lo ≤ fuel → lo ≤ hi → hi ≤ l.length →
      (∀ i, (h : i < l.length) → i < lo → p (l[i].end_ns) = true) →
      (∀ i, (h : i < l.length) → hi ≤ i → p (l[i].end_ns) = false) →
      bisect_go l p fuel lo hi = l.countP (fun e => p e.end_ns) := by
  intro fuel
  induction fuel with
  | zero =>
    intro lo hi hfuel hlohi hhi h1 h2
    have : lo = hi := by omega
    subst this
    rw [bisect_go]
    exact (countP_partition _ l lo (le_trans hlohi hhi) h1
      (fun i h hi2 => h2 i h hi2)).symm
  | succ fuel ih =>
    intro lo hi hfuel hlohi hhi h1 h2
    rw [bisect_go]
    by_cases hlt : lo < hi
    · rw [if_pos hlt]
      have hmidlt : (lo + hi) / 2 < hi := by omega
      have hmidge : lo ≤ (lo + hi) / 2 := by omega
      have hmidlen : (lo + hi) / 2 < l.length := lt_of_lt_of_le hmidlt hhi
      by_cases hp : p (keyAt l ((lo + hi) / 2)) = true
      · have hp' := hp
        rw [keyAt_eq_getElem hmidlen] at hp'
        simp only [hp, if_true]
        apply ih ((lo + hi) / 2 + 1) hi (by omega) (by omega) hhi
        · intro i h hik
          have hile : i ≤ (lo + hi) / 2 := by omega
          have hmle := end_ns_mono hs hile hmidlen
          rw [keyAt_eq_getElem h, keyAt_eq_getElem hmidlen] at hmle
          exact hmono _ _ hmle hp'
        · exact h2
      · have hp' := hp
        rw [keyAt_eq_getElem hmidlen] at hp'
        simp only [hp, if_false]
        apply ih lo ((lo + hi) / 2) (by omega) (by omega) (le_of_lt hmidlen) h1
        intro i h hik
        by_contra hcon
        have hpi : p (l[i].end_ns) = true := by
          revert hcon; cases (p (l[i].end_ns)) <;> simp
        have hmle := end_ns_mono hs hik h
        rw [keyAt_eq_getElem hmidlen, keyAt_eq_getElem h] at hmle
        exact hp' (hmono _ _ hmle hpi)
    · rw [if_neg hlt]
      have : lo = hi := by omega
      subst this
      exact (countP_partition _ l lo (le_trans hlohi hhi) h1
        (fun i h hi2 => h2 i h hi2)).symm

lemma bisect_left_eq_countP {l : List SnglInspiral} (hs : EndOrdered l)
    (x : ℤ) : bisect_left l x = l.countP (fun e => decide (e.end_ns < x)) := by
  apply bisect_go_eq_countP l _ _ hs (l.length + 1) 0 l.length (by omega)
    (Nat.zero_le _) (le_refl _) (by omega) (by omega)
  intro k1 k2 hk h
  simp only [decide_eq_true_eq] at h ⊢
  omega

lemma bisect_right_eq_countP {l : List SnglInspiral} (hs : EndOrdered l)
    (x : ℤ) : bisect_right l x = l.countP (fun e => decide (e.end_ns ≤ x)) := by
  apply bisect_go_eq_countP l _ _ hs (l.length + 1) 0 l.length (by omega)
    (Nat.zero_le _) (le_refl _) (by omega) (by omega)
  intro k1 k2 hk h
  simp only [decide_eq_true_eq] at h ⊢
  omega

/-- On a sorted list, taking the first `countP (≤ R)` elements is the same
as keeping all elements `≤ R`. -/
lemma sorted_take_countP (R : ℤ) :
    ∀ (l : List SnglInspiral), EndOrdered l →
      l.take (l.countP fun e => decide (e.end_ns ≤ R)) =
        l.filter fun e => decide (e.end_ns ≤ R) := by
  intro l
  induction l with
  | nil => simp
  | cons a l ih =>
    intro hs
    obtain ⟨hall, hsl⟩ := List.sorted_cons.mp hs
    by_cases ha : a.end_ns ≤ R
    · have ha' : (decide (a.end_ns ≤ R)) = true := by simpa using ha
      simp only [List.countP_cons, List.filter_cons, ha', if_true,
        List.take_succ_cons, ih hsl]
    · have hc : (a :: l).countP (fun e => decide (e.end_ns ≤ R)) = 0 := by
        rw [List.countP_eq_zero]
        intro b hb
        rcases List.mem_cons.mp hb with rfl | hbl
        · simpa using ha
        · have := hall b hbl
          simp only [decide_eq_true_eq]
          omega
      rw [hc, List.take_zero]
      rw [eq_comm, List.filter_eq_nil_iff]
      intro b hb
      rcases List.mem_cons.mp hb with rfl | hbl
      · simpa using ha
      · have := hall b hbl
        simp only [decide_eq_true_eq]
        omega

/-- The bisection window slice of a sorted list is the linear-scan filter
over the window `[L, R]`. -/
lemma slice_eq_filter (L R : ℤ) (hLR : L ≤ R) :
    ∀ (l : List SnglInspiral), EndOrdered l →
      (l.drop (l.countP fun e => decide (e.end_ns < L))).take
          ((l.countP fun e => decide (e.end_ns ≤ R)) -
            (l.countP fun e => decide (e.end_ns < L))) =
        l.filter fun e => decide (L ≤ e.end_ns) && decide (e.end_ns ≤ R) := by
  intro l
  induction l with
  | nil => simp
  | cons a l ih =>
    intro hs
    obtain ⟨hall, hsl⟩ := List.sorted_cons.mp hs
    by_cases haL : a.end_ns < L
    · have haL' : (decide (a.end_ns < L)) = true := by simpa using haL
      have haR' : (decide (a.end_ns ≤ R)) = true := by
        simp only [decide_eq_true_eq]; omega
      have haW : (decide (L ≤ a.end_ns)) = false := by
        simp only [decide_eq_false_iff_not, not_le]; omega
      simp only [List.countP_cons, List.filter_cons, haL', haR', haW, if_true,
        Bool.false_and, if_false, Nat.add_sub_add_right, List.drop_succ_cons]
      exact ih hsl
    · have hc : (a :: l).countP (fun e => decide (e.end_ns < L)) = 0 := by
        rw [List.countP_eq_zero]
        intro b hb
        rcases List.mem_cons.mp hb with rfl | hbl
        · simpa using haL
        · have := hall b hbl
          simp only [decide_eq_true_eq]
          omega
      rw [hc, List.drop_zero, Nat.sub_zero, sorted_take_countP R _ hs]
      apply List.filter_congr
      intro b hb
      have hbL : L ≤ b.end_ns := by
        rcases List.mem_cons.mp hb with rfl | hbl
        · omega
        · have := hall b hbl; omega
      simp [hbL]

/-- Shared characterization of `get_coincs` on a sorted list: it is the
brute-force window scan further filtered by `comparefunc`. -/
lemma get_coincs_eq_filter (l : List SnglInspiral) (a : SnglInspiral)
    (θ : ℚ) (c : SnglInspiral → SnglInspiral → ℚ → Bool)
    (hs : EndOrdered l) :
    get_coincs l a θ c =
      (get_coincident_candidates_spec l a 500000000).filter
        fun b => !c a b θ := by
  simp only [get_coincs, get_coincident_candidates_spec]
  rw [bisect_left_eq_countP hs, bisect_right_eq_countP hs]
  rw [slice_eq_filter (a.end_ns - 500000000) (a.end_ns + 500000000)
    (by omega) l hs]


/-- Membership in `choices2` of a list sorted by an asymmetric relation. -/
lemma choices2_mem_sorted {α : Type} {r : α → α → Prop}
    (hr : ∀ {u v : α}, r u v → ¬r v u) :
    ∀ {l : List α}, l.Sorted r → ∀ {a b : α},
      ((a, b) ∈ choices2 l ↔ a ∈ l ∧ b ∈ l ∧ r a b) := by
  intro l
  induction l with
  | nil => simp [choices2]
  | cons x xs ih =>
    intro hs a b
    obtain ⟨hall, hxs⟩ := List.sorted_cons.mp hs
    constructor
    · intro h
      rcases List.mem_append.mp h with h | h
      · obtain ⟨y, hy, hxy⟩ := List.mem_map.mp h
        obtain ⟨rfl, rfl⟩ := Prod.mk.injEq .. ▸ And.intro
          (congrArg Prod.fst hxy) (congrArg Prod.snd hxy)
        exact ⟨List.mem_cons_self _ _, List.mem_cons_of_mem _ hy, hall _ hy⟩
      · obtain ⟨ha, hb, hab⟩ := (ih hxs).mp h
        exact ⟨List.mem_cons_of_mem _ ha, List.mem_cons_of_mem _ hb, hab⟩
    · rintro ⟨ha, hb, hab⟩
      rcases List.mem_cons.mp ha with hax | ha'
      · rcases List.mem_cons.mp hb with hbx | hb'
        · exfalso
          rw [hax, hbx] at hab
          exact hr hab hab
        · refine List.mem_append.mpr (Or.inl (List.mem_map.mpr ⟨b, hb', ?_⟩))
          rw [hax]
      · rcases List.mem_cons.mp hb with hbx | hb'
        · exfalso
          rw [hbx] at hab
          exact hr (hall a ha') hab
        · exact List.mem_append.mpr (Or.inr ((ih hxs).mpr ⟨ha', hb', hab⟩))

lemma char_eq_of_toNat_eq {c d : Char} (h : c.toNat = d.toNat) : c = d :=
  Char.eq_of_val_eq (UInt32.ext h)

lemma chListLeB_total : ∀ x y : List Char,
    chListLeB x y = true ∨ chListLeB y x = true := by
  intro x
  induction x with
  | nil => intro y; left; rfl
  | cons c cs ih =>
    intro y
    cases y with
    | nil => right; rfl
    | cons d ds =>
      by_cases hcd : c = d
      · subst hcd
        simp only [chListLeB, if_pos rfl]
        exact ih ds
      · have hdc : d ≠ c := fun h => hcd h.symm
        have hne : c.toNat ≠ d.toNat := fun h => hcd (char_eq_of_toNat_eq h)
        simp only [chListLeB, if_neg hcd, if_neg hdc, decide_eq_true_eq]
        omega

lemma chListLeB_trans : ∀ x y z : List Char,
    chListLeB x y = true → chListLeB y z = true → chListLeB x z = true := by
  intro x
  induction x with
  | nil => intro y z _ _; rfl
  | cons c cs ih =>
    intro y z h1 h2
    cases y with
    | nil => simp [chListLeB] at h1
    | cons d ds =>
      cases z with
      | nil => simp [chListLeB] at h2
      | cons e es =>
        by_cases hcd : c = d
        · subst hcd
          simp only [chListLeB, if_pos rfl] at h1
          by_cases hce : c = e
          · subst hce
            simp only [chListLeB, if_pos rfl] at h2 ⊢
            exact ih ds es h1 h2
          · simp only [chListLeB, if_neg hce] at h2 ⊢
            exact h2
        · simp only [chListLeB, if_neg hcd, decide_eq_true_eq] at h1
          by_cases hde : d = e
          · subst hde
            simp only [chListLeB, if_neg hcd, decide_eq_true_eq]
            exact h1
          · simp only [chListLeB, if_neg hde, decide_eq_true_eq] at h2
            have hce : c ≠ e := by
              intro h
              subst h
              omega
            simp only [chListLeB, if_neg hce, decide_eq_true_eq]
            omega

lemma chListLeB_antisymm : ∀ x y : List Char,
    chListLeB x y = true → chListLeB y x = true → x = y := by
  intro x
  induction x with
  | nil =>
    intro y _ h2
    cases y with
    | nil => rfl
    | cons d ds => simp [chListLeB] at h2
  | cons c cs ih =>
    intro y h1 h2
    cases y with
    | nil => simp [chListLeB] at h1
    | cons d ds =>
      by_cases hcd : c = d
      · subst hcd
        simp only [chListLeB, if_pos rfl] at h1 h2
        rw [ih ds h1 h2]
      · have hdc : d ≠ c := fun h => hcd h.symm
        simp only [chListLeB, if_neg hcd, if_neg hdc,
          decide_eq_true_eq] at h1 h2
        omega

lemma strLeB_total (a b : String) : strLeB a b = true ∨ strLeB b a = true :=
  chListLeB_total a.data b.data

lemma strLeB_trans (a b c : String) (h1 : strLeB a b = true)
    (h2 : strLeB b c = true) : strLeB a c = true :=
  chListLeB_trans a.data b.data c.data h1 h2

lemma strLeB_antisymm {a b : String} (h1 : strLeB a b = true)
    (h2 : strLeB b a = true) : a = b := by
  have hd := chListLeB_antisymm a.data b.data h1 h2
  cases a
  cases b
  simp at hd
  rw [hd]

/-- Membership in the table built by `replicate_threshold`. -/
lemma replicate_threshold_mem {v : ℚ} {S : List String} (hn : S.Nodup)
    {a b : String} {w : ℚ} :
    ((a, b), w) ∈ replicate_threshold v S ↔
      a ∈ S ∧ b ∈ S ∧ a ≠ b ∧ w = v := by
  have hperm := List.perm_insertionSort (fun x y => strLeB x y = true) S
  have hsle : (S.insertionSort fun x y => strLeB x y = true).Sorted
      (fun x y => strLeB x y = true) :=
    @List.sorted_insertionSort String (fun x y => strLeB x y = true) _
      ⟨strLeB_total⟩ ⟨strLeB_trans⟩ S
  have hnd : (S.insertionSort fun x y => strLeB x y = true).Nodup :=
    hperm.nodup_iff.mpr hn
  have hslt : (S.insertionSort fun x y => strLeB x y = true).Pairwise
      (fun x y => strLeB x y = true ∧ x ≠ y) := hsle.and hnd
  have hasym : ∀ {u u' : String}, (strLeB u u' = true ∧ u ≠ u') →
      ¬(strLeB u' u = true ∧ u' ≠ u) :=
    fun h h' => h.2 (strLeB_antisymm h.1 h'.1)
  have hasym2 : ∀ {u u' : String}, (strLeB u' u = true ∧ u' ≠ u) →
      ¬(strLeB u u' = true ∧ u ≠ u') :=
    fun h h' => h.2 (strLeB_antisymm h.1 h'.1)
  have hgt : (S.insertionSort fun x y => strLeB x y = true).reverse.Pairwise
      (fun x y => strLeB y x = true ∧ y ≠ x) :=
    List.pairwise_reverse.mpr hslt
  have hmem : ∀ x : String,
      x ∈ (S.insertionSort fun x y => strLeB x y = true) ↔ x ∈ S :=
    fun x => hperm.mem_iff
  unfold replicate_threshold
  rw [List.mem_append, List.mem_map, List.mem_map]
  constructor
  · rintro (⟨p, hp, hpe⟩ | ⟨p, hp, hpe⟩)
    · obtain ⟨rfl, rfl⟩ : p = (a, b) ∧ v = w :=
        ⟨congrArg Prod.fst hpe, congrArg Prod.snd hpe⟩
      obtain ⟨ha, hb, hab⟩ := (choices2_mem_sorted hasym hslt).mp hp
      exact ⟨(hmem a).mp ha, (hmem b).mp hb, hab.2, rfl⟩
    · obtain ⟨rfl, rfl⟩ : p = (a, b) ∧ v = w :=
        ⟨congrArg Prod.fst hpe, congrArg Prod.snd hpe⟩
      obtain ⟨ha, hb, hab⟩ := (choices2_mem_sorted hasym2 hgt).mp hp
      rw [List.mem_reverse] at ha hb
      exact ⟨(hmem a).mp ha, (hmem b).mp hb, Ne.symm hab.2, rfl⟩
  · rintro ⟨ha, hb, hab, rfl⟩
    rcases strLeB_total a b with h | h
    · refine Or.inl ⟨(a, b), ?_, rfl⟩
      exact (choices2_mem_sorted hasym hslt).mpr
        ⟨(hmem a).mpr ha, (hmem b).mpr hb, h, hab⟩
    · refine Or.inr ⟨(a, b), ?_, rfl⟩
      refine (choices2_mem_sorted hasym2 hgt).mpr
        ⟨?_, ?_, h, Ne.symm hab⟩
      · exact List.mem_reverse.mpr ((hmem a).mpr ha)
      · exact List.mem_reverse.mpr ((hmem b).mpr hb)

lemma lookup_of_all_values {κ β : Type} [BEq κ] [LawfulBEq κ] (v : β) :
    ∀ (l : List (κ × β)), (∀ p ∈ l, p.2 = v) → ∀ k : κ,
      k ∈ l.map Prod.fst → l.lookup k = some v := by
  intro l
  induction l with
  | nil => simp
  | cons p l ih =>
    obtain ⟨k', v'⟩ := p
    intro hv k hk
    by_cases hkp : k = k'
    · subst hkp
      have hv' : v' = v := hv (k, v') (List.mem_cons_self _ _)
      simp [List.lookup, hv']
    · have hne : (k == k') = false := beq_eq_false_iff_ne.mpr hkp
      simp only [List.lookup, hne]
      apply ih (fun q hq => hv q (List.mem_cons_of_mem _ hq))
      rcases (by simpa using hk : k = k' ∨ ∃ x, (k, x) ∈ l) with h | h
      · exact absurd h hkp
      · obtain ⟨x, hx⟩ := h
        exact List.mem_map.mpr ⟨(k, x), hx, rfl⟩

/-- Looking up any ordered pair of distinct instruments of `S` in the
replicated table yields the scalar threshold. -/
lemma replicate_threshold_lookup {v : ℚ} {S : List String} (hn : S.Nodup)
    {a b : String} (ha : a ∈ S) (hb : b ∈ S) (hab : a ≠ b) :
    (replicate_threshold v S).lookup (a, b) = some v := by
  apply lookup_of_all_values
  · intro p hp
    unfold replicate_threshold at hp
    rcases List.mem_append.mp hp with h | h <;>
      · obtain ⟨q, _, hqe⟩ := List.mem_map.mp h
        exact (congrArg Prod.snd hqe).symm ▸ rfl
  · have : (((a, b), v) : (String × String) × ℚ) ∈ replicate_threshold v S :=
      (replicate_threshold_mem hn).mpr ⟨ha, hb, hab, rfl⟩
    exact List.mem_map.mpr ⟨((a, b), v), this, rfl⟩

/-- C1 (counterexample): as stated, `get_coincs` does *not* return exactly
the subset of events within the window — events inside the window that fail
the supplied `comparefunc` are dropped.  Here the single in-window event is
rejected by a `comparefunc` that always returns `True`. -/
theorem get_coincs_not_pure_window_scan :
    get_coincs [⟨"L1", 0, 0⟩] ⟨"H1", 0, 1⟩ 0 (fun _ _ _ => true) ≠
      get_coincident_candidates_spec [⟨"L1", 0, 0⟩] ⟨"H1", 0, 1⟩
        500000000 := by decide

/-- C1 (amended): for every end-time-sorted `EventList`, every reference
event, threshold and `comparefunc`, the bisection-based `get_coincs` equals
the brute-force linear window scan (window fixed at 0.5 s = 500 000 000 ns)
further filtered by `comparefunc`; in particular the candidate window slice
consulted by the bisection searches is exactly the linear-scan subset. -/
theorem get_coincs_refines_window_scan (l : List SnglInspiral)
    (a : SnglInspiral) (θ : ℚ)
    (c : SnglInspiral → SnglInspiral → ℚ → Bool) (hs : EndOrdered l) :
    get_coincs l a θ c =
      (get_coincident_candidates_spec l a 500000000).filter
        fun b => !c a b θ :=
  get_coincs_eq_filter l a θ c hs

theorem get_coincs_refines_window_scan_witness :
    EndOrdered [⟨"L1", 100, 0⟩] ∧
      get_coincs [⟨"L1", 100, 0⟩] ⟨"H1", 0, 1⟩ 0 (fun _ _ _ => false) =
        (get_coincident_candidates_spec [⟨"L1", 100, 0⟩] ⟨"H1", 0, 1⟩
            500000000).filter
          fun b => !(fun _ _ _ => false) (⟨"H1", 0, 1⟩ : SnglInspiral) b
            (0 : ℚ) :=
  ⟨by decide, get_coincs_refines_window_scan _ _ _ _ (by decide)⟩

/-- C10: for every sorted list, reference event, threshold and
`comparefunc`, an event is returned by `get_coincs` iff it lies in the list,
its end time is within the fixed constant 0.5 s (500 000 000 ns) of the
reference end time — independent of `e_thinca_parameter` — and it passes
the supplied pairwise compare function. -/
theorem get_coincs_window_and_comparefunc (l : List SnglInspiral)
    (a : SnglInspiral) (θ : ℚ)
    (c : SnglInspiral → SnglInspiral → ℚ → Bool) (b : SnglInspiral)
    (hs : EndOrdered l) :
    b ∈ get_coincs l a θ c ↔
      b ∈ l ∧ (a.end_ns - 500000000 ≤ b.end_ns ∧
        b.end_ns ≤ a.end_ns + 500000000) ∧ c a b θ = false := by
  rw [get_coincs_eq_filter l a θ c hs]
  unfold get_coincident_candidates_spec
  simp only [List.mem_filter, Bool.and_eq_true, decide_eq_true_eq,
    Bool.not_eq_true', and_assoc]

theorem get_coincs_window_and_comparefunc_witness :
    EndOrdered [⟨"L1", 100, 0⟩] ∧
      ((⟨"L1", 100, 0⟩ : SnglInspiral) ∈
          get_coincs [⟨"L1", 100, 0⟩] ⟨"H1", 0, 1⟩ 0 (fun _ _ _ => false) ↔
        (⟨"L1", 100, 0⟩ : SnglInspiral) ∈ [(⟨"L1", 100, 0⟩ : SnglInspiral)] ∧
          ((⟨"H1", 0, 1⟩ : SnglInspiral).end_ns - 500000000 ≤
              (⟨"L1", 100, 0⟩ : SnglInspiral).end_ns ∧
            (⟨"L1", 100, 0⟩ : SnglInspiral).end_ns ≤
              (⟨"H1", 0, 1⟩ : SnglInspiral).end_ns + 500000000) ∧
          (fun _ _ _ => false) (⟨"H1", 0, 1⟩ : SnglInspiral)
            (⟨"L1", 100, 0⟩ : SnglInspiral) (0 : ℚ) = false) :=
  ⟨by decide,
    get_coincs_window_and_comparefunc _ _ _ _ _ (by decide)⟩

/-- C4: the pair `(a, b)` is judged coincident (`inspiral_coinc_compare`
returns `False`) iff the external ellipsoidal statistic converges and its
value is at most the threshold; non-convergence (`ValueError`, modelled by
`none`) is absorbed into "not coincident" and never propagated — the
function is total. -/
theorem inspiral_coinc_compare_fail_safe
    (ecalc : SnglInspiral → SnglInspiral → Option ℚ)
    (a b : SnglInspiral) (θ : ℚ) :
    inspiral_coinc_compare ecalc a b θ = false ↔
      ∃ s, ecalc a b = some s ∧ s ≤ θ := by
  unfold inspiral_coinc_compare
  cases h : ecalc a b with
  | none => simp
  | some s => simp [not_lt]

/-- C7: for every scalar threshold and duplicate-free instrument list, the
replicated table holds exactly the ordered pairs of distinct instruments
(both orders), each mapped to the scalar. -/
theorem replicate_threshold_pairs (v : ℚ) (S : List String) (hS : S.Nodup)
    (a b : String) (w : ℚ) :
    ((a, b), w) ∈ replicate_threshold v S ↔
      a ∈ S ∧ b ∈ S ∧ a ≠ b ∧ w = v :=
  replicate_threshold_mem hS

theorem replicate_threshold_pairs_witness :
    (["B", "A"] : List String).Nodup ∧
      ((("A", "B"), (6 : ℚ)) ∈ replicate_threshold 6 ["B", "A"] ↔
        "A" ∈ (["B", "A"] : List String) ∧
          "B" ∈ (["B", "A"] : List String) ∧ "A" ≠ "B" ∧ (6 : ℚ) = 6) :=
  ⟨by decide, replicate_threshold_pairs 6 ["B", "A"] (by decide) "A" "B" 6⟩

lemma set_offset_set_offset (l : EventList) (o o' : ℤ) :
    set_offset (set_offset l o) o' = set_offset l o' := by
  obtain ⟨evs, off⟩ := l
  simp only [set_offset, add_offset, List.map_map]
  have hf : ((fun e : SnglInspiral => { e with end_ns := e.end_ns + (o' - o) }) ∘
      fun e : SnglInspiral => { e with end_ns := e.end_ns + (o - off) }) =
      fun e : SnglInspiral => { e with end_ns := e.end_ns + (o' - off) } := by
    funext e
    cases e with
    | mk ifo t d =>
      simp only [Function.comp, SnglInspiral.mk.injEq]
      exact ⟨by simp, by ring, by simp⟩
  rw [hf]

lemma set_offset_zero (l : EventList) (h : l.offset = 0) : set_offset l 0 = l := by
  obtain ⟨evs, off⟩ := l
  simp only at h
  subst h
  simp only [set_offset, add_offset]
  have hf : (fun e : SnglInspiral => { e with end_ns := e.end_ns + (0 - 0) }) =
      fun e : SnglInspiral => e := by
    funext e
    cases e with
    | mk ifo t d => simp
  rw [hf, List.map_id']

lemma remove_offsetdict_set_offsetdict (state : List (String × EventList))
    (od : List (String × ℤ)) :
    remove_offsetdict (set_offsetdict state od) = remove_offsetdict state := by
  induction state with
  | nil => rfl
  | cons il rest ih =>
    simp only [set_offsetdict, remove_offsetdict, List.map_cons] at ih ⊢
    cases h : od.lookup il.1 with
    | some o => simp [h, set_offset_set_offset, ih]
    | none => simp [h, ih]

lemma remove_offsetdict_initState (evd : List (String × List SnglInspiral)) :
    remove_offsetdict (initState evd) = initState evd := by
  induction evd with
  | nil => rfl
  | cons ie rest ih =>
    simp only [remove_offsetdict, initState, List.map_cons] at ih ⊢
    rw [set_offset_zero _ rfl]
    simp [ih]

lemma remove_offsetdict_doSlide (pid : ℕ) (tbl : List ((String × String) × ℚ))
    (cmpf : SnglInspiral → SnglInspiral → ℚ → Bool)
    (rej : List (String × SnglInspiral) → Bool) (avail : List String)
    (state : List (String × EventList)) (slide : ℕ × List (String × ℤ)) :
    remove_offsetdict (doSlide pid tbl cmpf rej avail state slide).1 =
      remove_offsetdict state := by
  unfold doSlide
  by_cases h1 : ((slide.2.map Prod.fst).dedup).length < 2
  · rw [if_pos h1]
  · rw [if_neg h1]
    by_cases h2 :
        (!((slide.2.map Prod.fst).dedup).all fun i => avail.contains i) = true
    · rw [if_pos h2]
    · rw [if_neg h2]
      exact remove_offsetdict_set_offsetdict state slide.2

lemma runSlides_fst_remove (pid : ℕ) (tbl : List ((String × String) × ℚ))
    (cmpf : SnglInspiral → SnglInspiral → ℚ → Bool)
    (rej : List (String × SnglInspiral) → Bool) (avail : List String) :
    ∀ (slides : List (ℕ × List (String × ℤ)))
      (state : List (String × EventList)),
      remove_offsetdict (runSlides pid tbl cmpf rej avail state slides).1 =
        remove_offsetdict state := by
  intro slides
  induction slides with
  | nil => intro state; rfl
  | cons s rest ih =>
    intro state
    simp only [runSlides]
    rw [ih]
    exact remove_offsetdict_doSlide pid tbl cmpf rej avail state s

lemma runSlides_trace_length (pid : ℕ) (tbl : List ((String × String) × ℚ))
    (cmpf : SnglInspiral → SnglInspiral → ℚ → Bool)
    (rej : List (String × SnglInspiral) → Bool) (avail : List String) :
    ∀ (slides : List (ℕ × List (String × ℤ)))
      (state : List (String × EventList)),
      (runSlides pid tbl cmpf rej avail state slides).2.length =
        slides.length := by
  intro slides
  induction slides with
  | nil => intro state; rfl
  | cons s rest ih =>
    intro state
    simp only [runSlides, List.length_cons, ih]

lemma runSlides_append (pid : ℕ) (tbl : List ((String × String) × ℚ))
    (cmpf : SnglInspiral → SnglInspiral → ℚ → Bool)
    (rej : List (String × SnglInspiral) → Bool) (avail : List String) :
    ∀ (s1 s2 : List (ℕ × List (String × ℤ)))
      (state : List (String × EventList)),
      runSlides pid tbl cmpf rej avail state (s1 ++ s2) =
        ((runSlides pid tbl cmpf rej avail
            (runSlides pid tbl cmpf rej avail state s1).1 s2).1,
          (runSlides pid tbl cmpf rej avail state s1).2 ++
            (runSlides pid tbl cmpf rej avail
              (runSlides pid tbl cmpf rej avail state s1).1 s2).2) := by
  intro s1
  induction s1 with
  | nil => intro s2 state; simp [runSlides]
  | cons s rest ih =>
    intro s2 state
    simp only [List.cons_append, runSlides, List.append_eq]
    rw [ih]

lemma doSlide_eq_skip (pid : ℕ) (tbl : List ((String × String) × ℚ))
    (cmpf : SnglInspiral → SnglInspiral → ℚ → Bool)
    (rej : List (String × SnglInspiral) → Bool) (avail : List String)
    (state : List (String × EventList)) (slide : ℕ × List (String × ℤ))
    (h : ((slide.2.map Prod.fst).dedup).length < 2 ∨
      ¬ ((slide.2.map Prod.fst).dedup).all
          (fun i => avail.contains i) = true) :
    doSlide pid tbl cmpf rej avail state slide =
      (state, ⟨slide.1, slide.2, false, [], [], state⟩) := by
  unfold doSlide
  by_cases h1 : ((slide.2.map Prod.fst).dedup).length < 2
  · rw [if_pos h1]
  · rw [if_neg h1]
    rcases h with h | h
    · exact absurd h h1
    · have hfalse : ((slide.2.map Prod.fst).dedup).all
          (fun i => avail.contains i) = false := eq_false_of_ne_true h
      rw [if_pos (by rw [hfalse]; rfl)]

/-- Every tuple produced by the tuple-growth recursion is pairwise
coincident: each new event was admitted only after passing `pairCoinc`
against every event already in the tuple. -/
lemma tuplesOver_pairwise (cmpf : SnglInspiral → SnglInspiral → ℚ → Bool)
    (tbl : List ((String × String) × ℚ)) :
    ∀ (ls : List (String × List SnglInspiral))
      (t : List (String × SnglInspiral)),
      t ∈ tuplesOver cmpf tbl ls →
      t.Pairwise fun x y => pairCoinc cmpf tbl x y = true := by
  intro ls
  induction ls with
  | nil =>
    intro t ht
    simp only [tuplesOver, List.mem_singleton] at ht
    subst ht
    exact List.Pairwise.nil
  | cons p rest ih =>
    obtain ⟨i, es⟩ := p
    intro t ht
    simp only [tuplesOver, List.mem_flatMap, List.mem_map,
      List.mem_filter] at ht
    obtain ⟨t', ht', e, ⟨_, hall⟩, rfl⟩ := ht
    refine List.Pairwise.cons ?_ (ih t' ht')
    intro jf hjf
    exact (List.all_eq_true.mp hall) jf hjf

/-- Every tuple emitted by the modelled search is pairwise coincident. -/
lemma CoincidentNTuples_pairwise (state : List (String × EventList))
    (cmpf : SnglInspiral → SnglInspiral → ℚ → Bool)
    (instruments : List String) (tbl : List ((String × String) × ℚ))
    (t : List (String × SnglInspiral))
    (ht : t ∈ CoincidentNTuples state cmpf instruments tbl) :
    t.Pairwise fun x y => pairCoinc cmpf tbl x y = true := by
  unfold CoincidentNTuples at ht
  simp only [List.mem_flatMap, List.mem_filter] at ht
  obtain ⟨s, _, hts⟩ := ht
  exact tuplesOver_pairwise cmpf tbl s t hts

/-- What the loop records per outcome: a processed slide used the
pre-computed threshold table, named at least two available instruments, and
recorded exactly the accepted tuples of the search run on its own state; a
skipped slide recorded nothing. -/
lemma runSlides_outcomes (pid : ℕ) (tbl : List ((String × String) × ℚ))
    (cmpf : SnglInspiral → SnglInspiral → ℚ → Bool)
    (rej : List (String × SnglInspiral) → Bool) (avail : List String) :
    ∀ (slides : List (ℕ × List (String × ℤ)))
      (state : List (String × EventList)) (out : SlideOutcome),
      out ∈ (runSlides pid tbl cmpf rej avail state slides).2 →
      (out.processed = true →
        out.thresholds_used = tbl ∧
        2 ≤ ((out.offsets.map Prod.fst).dedup).length ∧
        (∀ i ∈ (out.offsets.map Prod.fst).dedup, i ∈ avail) ∧
        out.records = ((CoincidentNTuples out.state_after cmpf
            ((out.offsets.map Prod.fst).dedup) tbl).filter
              fun t => !rej t).map
            fun t => ⟨pid, out.time_slide_id, t⟩) ∧
      (out.processed = false → out.records = []) := by
  intro slides
  induction slides with
  | nil =>
    intro state out hout
    simp [runSlides] at hout
  | cons s rest ih =>
    intro state out hout
    simp only [runSlides, List.mem_cons] at hout
    rcases hout with hout | hout
    · unfold doSlide at hout
      by_cases h1 : ((s.2.map Prod.fst).dedup).length < 2
      · rw [if_pos h1] at hout
        subst hout
        exact ⟨fun h => by simp at h, fun _ => rfl⟩
      · rw [if_neg h1] at hout
        by_cases h2 :
            (!((s.2.map Prod.fst).dedup).all fun i => avail.contains i) = true
        · rw [if_pos h2] at hout
          subst hout
          exact ⟨fun h => by simp at h, fun _ => rfl⟩
        · rw [if_neg h2] at hout
          subst hout
          refine ⟨fun _ => ⟨rfl, Nat.le_of_not_lt h1, ?_, rfl⟩,
            fun h => by simp at h⟩
          have hall : ((s.2.map Prod.fst).dedup).all
              (fun i => avail.contains i) = true := by
            revert h2
            cases ((s.2.map Prod.fst).dedup).all fun i => avail.contains i <;>
              simp
          intro i hi
          exact List.elem_iff.mp ((List.all_eq_true.mp hall) i hi)
    · exact ih _ _ hout

/-- C5: applying an offset and then removing it restores every event's end
time exactly (integer `LIGOTimeGPS` arithmetic, no drift), for any event
list at zero applied offset and any `d`. -/
theorem apply_offset_remove_offset_roundtrip (l : EventList) (d : ℤ)
    (h : l.offset = 0) :
    remove_offset (apply_offset l d) = l := by
  obtain ⟨evs, off⟩ := l
  simp only at h
  subst h
  simp only [apply_offset, remove_offset, add_offset, List.map_map]
  have hf : ((fun e : SnglInspiral => { e with end_ns := e.end_ns + -(0 + d) }) ∘
      fun e : SnglInspiral => { e with end_ns := e.end_ns + d }) =
      fun e : SnglInspiral => e := by
    funext e
    cases e with
    | mk ifo t dd =>
      simp only [Function.comp, SnglInspiral.mk.injEq]
      exact ⟨by simp, by ring, by simp⟩
  rw [hf, List.map_id']

theorem apply_offset_remove_offset_roundtrip_witness :
    (⟨[⟨"H1", 100, 0⟩], 0⟩ : EventList).offset = 0 ∧
      remove_offset (apply_offset ⟨[⟨"H1", 100, 0⟩], 0⟩ 7) =
        ⟨[⟨"H1", 100, 0⟩], 0⟩ :=
  ⟨rfl, apply_offset_remove_offset_roundtrip _ 7 rfl⟩

/-- C3 (counterexample): offsets are *not* removed at the end of each
processed slide.  After the first (processed) slide, which shifts detector
A by one second, the event lists still carry the offset when the second
slide begins. -/
theorem offsets_not_removed_per_slide_cex :
    ((ligolw_thinca 0 [("A", [⟨"A", 0, 0⟩]), ("B", [⟨"B", 0, 1⟩])]
          [(0, [("A", 1000000000), ("B", 0)]), (1, [("A", 0), ("B", 0)])] 1
          (fun _ _ _ => true) (fun _ => false)).2.headD
        default).processed = true ∧
      ((ligolw_thinca 0 [("A", [⟨"A", 0, 0⟩]), ("B", [⟨"B", 0, 1⟩])]
            [(0, [("A", 1000000000), ("B", 0)]), (1, [("A", 0), ("B", 0)])] 1
            (fun _ _ _ => true) (fun _ => false)).2.headD
          default).state_after ≠
        initState [("A", [⟨"A", 0, 0⟩]), ("B", [⟨"B", 0, 1⟩])] := by
  decide

/-- C3 (amended): the driver does not restore zero offsets between slides;
each processed slide's `set_offsetdict` replaces the previously applied
offsets, and the offsets are removed once, after the loop.  Consequently,
whatever slides were processed or skipped, the final state of every
EventList is its indexed event list at zero offset and original times. -/
theorem ligolw_thinca_final_state_zero_offset (pid : ℕ)
    (evd : List (String × List SnglInspiral))
    (slides : List (ℕ × List (String × ℤ))) (θ : ℚ)
    (cmpf : SnglInspiral → SnglInspiral → ℚ → Bool)
    (rej : List (String × SnglInspiral) → Bool) :
    (ligolw_thinca pid evd slides θ cmpf rej).1 = initState evd := by
  simp only [ligolw_thinca]
  rw [runSlides_fst_remove, remove_offsetdict_initState]

/-- C6: a slide naming fewer than two instruments, or naming an instrument
for which there is no data, is skipped without failing: the run equals the
run without that slide (same final event-list state, same records for every
other slide), except that the trace additionally contains the skip outcome —
unprocessed, zero records, the event-list state passed through untouched. -/
theorem skipped_slide_has_no_effect (pid : ℕ)
    (evd : List (String × List SnglInspiral))
    (pre post : List (ℕ × List (String × ℤ))) (sid : ℕ)
    (od : List (String × ℤ)) (θ : ℚ)
    (cmpf : SnglInspiral → SnglInspiral → ℚ → Bool)
    (rej : List (String × SnglInspiral) → Bool)
    (h : ((od.map Prod.fst).dedup).length < 2 ∨
      ¬ ((od.map Prod.fst).dedup).all
          (fun i => (evd.map Prod.fst).contains i) = true) :
    ligolw_thinca pid evd (pre ++ (sid, od) :: post) θ cmpf rej =
      ((ligolw_thinca pid evd (pre ++ post) θ cmpf rej).1,
        (ligolw_thinca pid evd (pre ++ post) θ cmpf rej).2.take pre.length ++
          (⟨sid, od, false, [], [],
            (runSlides pid (replicate_threshold θ (evd.map Prod.fst)) cmpf rej
              (evd.map Prod.fst) (initState evd) pre).1⟩ : SlideOutcome) ::
            (ligolw_thinca pid evd (pre ++ post) θ cmpf rej).2.drop
              pre.length) := by
  have htl := runSlides_trace_length pid
    (replicate_threshold θ (evd.map Prod.fst)) cmpf rej (evd.map Prod.fst)
    pre (initState evd)
  simp only [ligolw_thinca]
  rw [runSlides_append pid _ cmpf rej _ pre ((sid, od) :: post)
      (initState evd),
    runSlides_append pid _ cmpf rej _ pre post (initState evd)]
  simp only [runSlides]
  rw [doSlide_eq_skip pid _ cmpf rej _ _ (sid, od) h]
  rw [List.take_left' htl, List.drop_left' htl]

theorem skipped_slide_has_no_effect_witness :
    ((([("A", (5 : ℤ))].map Prod.fst).dedup).length < 2 ∨
      ¬ (([("A", (5 : ℤ))].map Prod.fst).dedup).all
          (fun i => ([("A", ([] : List SnglInspiral)), ("B", [])].map
            Prod.fst).contains i) = true) ∧
    ligolw_thinca 0 [("A", []), ("B", [])]
        ([] ++ (0, [("A", 5)]) :: []) 1 cmpNever rejNever =
      ((ligolw_thinca 0 [("A", []), ("B", [])] ([] ++ []) 1
          cmpNever rejNever).1,
        (ligolw_thinca 0 [("A", []), ("B", [])] ([] ++ []) 1
            cmpNever rejNever).2.take
          (List.length ([] : List (ℕ × List (String × ℤ)))) ++
          (⟨0, [("A", 5)], false, [], [],
            (runSlides 0 (replicate_threshold 1
                ([("A", ([] : List SnglInspiral)), ("B", [])].map Prod.fst))
              cmpNever rejNever
              ([("A", ([] : List SnglInspiral)), ("B", [])].map Prod.fst)
              (initState [("A", []), ("B", [])]) []).1⟩ : SlideOutcome) ::
            (ligolw_thinca 0 [("A", []), ("B", [])] ([] ++ []) 1
                cmpNever rejNever).2.drop
              (List.length ([] : List (ℕ × List (String × ℤ))))) :=
  ⟨by decide, skipped_slide_has_no_effect 0 [("A", []), ("B", [])] [] [] 0
    [("A", 5)] 1 cmpNever rejNever (by decide)⟩

/-- C8: `coinc_tables.append_coinc` is invoked exactly once per accepted
tuple: a processed slide's record list is exactly the search's tuple list
filtered by the rejection function and tagged with the process and slide
identifiers (so each accepted tuple is recorded exactly as often as the
search emits it, a vetoed tuple never), and a skipped slide records
nothing. -/
theorem append_coinc_once_per_accepted_tuple (pid : ℕ)
    (evd : List (String × List SnglInspiral))
    (slides : List (ℕ × List (String × ℤ))) (θ : ℚ)
    (cmpf : SnglInspiral → SnglInspiral → ℚ → Bool)
    (rej : List (String × SnglInspiral) → Bool) (out : SlideOutcome)
    (hout : out ∈ (ligolw_thinca pid evd slides θ cmpf rej).2) :
    (out.processed = true →
      out.records = ((CoincidentNTuples out.state_after cmpf
          ((out.offsets.map Prod.fst).dedup)
          (replicate_threshold θ (evd.map Prod.fst))).filter
            fun t => !rej t).map
          fun t => ⟨pid, out.time_slide_id, t⟩) ∧
    (out.processed = false → out.records = []) := by
  have h2 : out ∈ (runSlides pid (replicate_threshold θ (evd.map Prod.fst))
      cmpf rej (evd.map Prod.fst) (initState evd) slides).2 := hout
  have hspec := runSlides_outcomes pid
    (replicate_threshold θ (evd.map Prod.fst)) cmpf rej (evd.map Prod.fst)
    slides (initState evd) out h2
  exact ⟨fun hp => (hspec.1 hp).2.2.2, hspec.2⟩

theorem append_coinc_once_per_accepted_tuple_witness :
    ((ligolw_thinca 0 [("A", [⟨"A", 0, 0⟩]), ("B", [⟨"B", 1000, 1⟩])] [(0, [("A", 0), ("B", 0)])] 1 cmpNever rejNever).2.headD default) ∈ (ligolw_thinca 0 [("A", [⟨"A", 0, 0⟩]), ("B", [⟨"B", 1000, 1⟩])] [(0, [("A", 0), ("B", 0)])] 1 cmpNever rejNever).2 ∧
      ((((ligolw_thinca 0 [("A", [⟨"A", 0, 0⟩]), ("B", [⟨"B", 1000, 1⟩])] [(0, [("A", 0), ("B", 0)])] 1 cmpNever rejNever).2.headD default).processed = true →
        ((ligolw_thinca 0 [("A", [⟨"A", 0, 0⟩]), ("B", [⟨"B", 1000, 1⟩])] [(0, [("A", 0), ("B", 0)])] 1 cmpNever rejNever).2.headD default).records =
          ((CoincidentNTuples ((ligolw_thinca 0 [("A", [⟨"A", 0, 0⟩]), ("B", [⟨"B", 1000, 1⟩])] [(0, [("A", 0), ("B", 0)])] 1 cmpNever rejNever).2.headD default).state_after cmpNever
              ((((ligolw_thinca 0 [("A", [⟨"A", 0, 0⟩]), ("B", [⟨"B", 1000, 1⟩])] [(0, [("A", 0), ("B", 0)])] 1 cmpNever rejNever).2.headD default).offsets.map Prod.fst).dedup)
              (replicate_threshold 1 ["A", "B"])).filter
            fun t => !rejNever t).map
            fun t => (⟨0, ((ligolw_thinca 0 [("A", [⟨"A", 0, 0⟩]), ("B", [⟨"B", 1000, 1⟩])] [(0, [("A", 0), ("B", 0)])] 1 cmpNever rejNever).2.headD default).time_slide_id, t⟩ : CoincRecord)) ∧
      (((ligolw_thinca 0 [("A", [⟨"A", 0, 0⟩]), ("B", [⟨"B", 1000, 1⟩])] [(0, [("A", 0), ("B", 0)])] 1 cmpNever rejNever).2.headD default).processed = false → ((ligolw_thinca 0 [("A", [⟨"A", 0, 0⟩]), ("B", [⟨"B", 1000, 1⟩])] [(0, [("A", 0), ("B", 0)])] 1 cmpNever rejNever).2.headD default).records = [])) :=
  ⟨by decide, append_coinc_once_per_accepted_tuple 0
    [("A", [⟨"A", 0, 0⟩]), ("B", [⟨"B", 1000, 1⟩])]
    [(0, [("A", 0), ("B", 0)])] 1 cmpNever rejNever _ (by decide)⟩

/-- C9 (counterexample): the threshold table consulted by the search is
*not* the replication over the slide's `offset_instruments`: it is computed
once, before the loop, over `avail_instruments`.  With three available
detectors and a slide naming only two, the table handed to the search
contains pairs involving the third detector. -/
theorem thresholds_not_replicated_per_slide_cex :
    ((ligolw_thinca 0 [("A", [⟨"A", 0, 0⟩]), ("B", [⟨"B", 0, 1⟩]), ("C", [⟨"C", 0, 2⟩])] [(0, [("A", 0), ("B", 0)])] 1 cmpNever rejNever).2.headD default).processed = true ∧
      ((ligolw_thinca 0 [("A", [⟨"A", 0, 0⟩]), ("B", [⟨"B", 0, 1⟩]), ("C", [⟨"C", 0, 2⟩])] [(0, [("A", 0), ("B", 0)])] 1 cmpNever rejNever).2.headD default).thresholds_used ≠
        replicate_threshold 1 ((((ligolw_thinca 0 [("A", [⟨"A", 0, 0⟩]), ("B", [⟨"B", 0, 1⟩]), ("C", [⟨"C", 0, 2⟩])] [(0, [("A", 0), ("B", 0)])] 1 cmpNever rejNever).2.headD default).offsets.map Prod.fst).dedup) := by
  decide

/-- C9 (amended): the table consulted by the search of every processed
slide is the one replication of the input threshold over
`avail_instruments`, computed before the loop; on every ordered pair of
distinct instruments of the slide's `offset_instruments` it agrees (value
`θ`) with the replication over `offset_instruments` that the claim
describes. -/
theorem thresholds_used_by_search (pid : ℕ)
    (evd : List (String × List SnglInspiral))
    (slides : List (ℕ × List (String × ℤ))) (θ : ℚ)
    (cmpf : SnglInspiral → SnglInspiral → ℚ → Bool)
    (rej : List (String × SnglInspiral) → Bool) (out : SlideOutcome)
    (a b : String)
    (hout : out ∈ (ligolw_thinca pid evd slides θ cmpf rej).2)
    (hproc : out.processed = true)
    (hnd : (evd.map Prod.fst).Nodup)
    (ha : a ∈ (out.offsets.map Prod.fst).dedup)
    (hb : b ∈ (out.offsets.map Prod.fst).dedup) (hab : a ≠ b) :
    out.thresholds_used = replicate_threshold θ (evd.map Prod.fst) ∧
      out.thresholds_used.lookup (a, b) = some θ ∧
      (replicate_threshold θ ((out.offsets.map Prod.fst).dedup)).lookup
          (a, b) = some θ := by
  have h2 : out ∈ (runSlides pid (replicate_threshold θ (evd.map Prod.fst))
      cmpf rej (evd.map Prod.fst) (initState evd) slides).2 := hout
  have hspec := (runSlides_outcomes pid
    (replicate_threshold θ (evd.map Prod.fst)) cmpf rej (evd.map Prod.fst)
    slides (initState evd) out h2).1 hproc
  obtain ⟨htbl, _, hsub, _⟩ := hspec
  refine ⟨htbl, ?_, ?_⟩
  · rw [htbl]
    exact replicate_threshold_lookup hnd (hsub a ha) (hsub b hb) hab
  · exact replicate_threshold_lookup (List.nodup_dedup _) ha hb hab

theorem thresholds_used_by_search_witness :
    ((ligolw_thinca 0 [("A", [⟨"A", 0, 0⟩]), ("B", [⟨"B", 1000, 1⟩])] [(0, [("A", 0), ("B", 0)])] 1 cmpNever rejNever).2.headD default) ∈ (ligolw_thinca 0 [("A", [⟨"A", 0, 0⟩]), ("B", [⟨"B", 1000, 1⟩])] [(0, [("A", 0), ("B", 0)])] 1 cmpNever rejNever).2 ∧
      ((ligolw_thinca 0 [("A", [⟨"A", 0, 0⟩]), ("B", [⟨"B", 1000, 1⟩])] [(0, [("A", 0), ("B", 0)])] 1 cmpNever rejNever).2.headD default).processed = true ∧
      ((["A", "B"] : List String).Nodup) ∧
      "A" ∈ ((((ligolw_thinca 0 [("A", [⟨"A", 0, 0⟩]), ("B", [⟨"B", 1000, 1⟩])] [(0, [("A", 0), ("B", 0)])] 1 cmpNever rejNever).2.headD default).offsets.map Prod.fst).dedup) ∧
      "B" ∈ ((((ligolw_thinca 0 [("A", [⟨"A", 0, 0⟩]), ("B", [⟨"B", 1000, 1⟩])] [(0, [("A", 0), ("B", 0)])] 1 cmpNever rejNever).2.headD default).offsets.map Prod.fst).dedup) ∧
      "A" ≠ "B" ∧
      (((ligolw_thinca 0 [("A", [⟨"A", 0, 0⟩]), ("B", [⟨"B", 1000, 1⟩])] [(0, [("A", 0), ("B", 0)])] 1 cmpNever rejNever).2.headD default).thresholds_used = replicate_threshold 1 ["A", "B"] ∧
        ((ligolw_thinca 0 [("A", [⟨"A", 0, 0⟩]), ("B", [⟨"B", 1000, 1⟩])] [(0, [("A", 0), ("B", 0)])] 1 cmpNever rejNever).2.headD default).thresholds_used.lookup ("A", "B") = some 1 ∧
        (replicate_threshold 1
            ((((ligolw_thinca 0 [("A", [⟨"A", 0, 0⟩]), ("B", [⟨"B", 1000, 1⟩])] [(0, [("A", 0), ("B", 0)])] 1 cmpNever rejNever).2.headD default).offsets.map Prod.fst).dedup)).lookup ("A", "B") =
          some 1) :=
  ⟨by decide, by decide, by decide, by decide, by decide, by decide,
    thresholds_used_by_search 0
      [("A", [⟨"A", 0, 0⟩]), ("B", [⟨"B", 1000, 1⟩])]
      [(0, [("A", 0), ("B", 0)])] 1 cmpNever rejNever _ "A" "B"
      (by decide) (by decide) (by decide) (by decide) (by decide)
      (by decide)⟩

/-- C2: every N-tuple recorded by the driver is a clique: within a recorded
tuple, every pair of events passed the search's pairwise admission test —
the fixed 0.5 s time window together with the Coincidence Predicate
(`comparefunc` returning `False`) at the pair's threshold from the
replicated table the driver handed to the search. -/
theorem recorded_ntuples_pairwise_coincident (pid : ℕ)
    (evd : List (String × List SnglInspiral))
    (slides : List (ℕ × List (String × ℤ))) (θ : ℚ)
    (cmpf : SnglInspiral → SnglInspiral → ℚ → Bool)
    (rej : List (String × SnglInspiral) → Bool) (out : SlideOutcome)
    (rec : CoincRecord)
    (hout : out ∈ (ligolw_thinca pid evd slides θ cmpf rej).2)
    (hrec : rec ∈ out.records) :
    rec.events.Pairwise fun x y =>
      pairCoinc cmpf (replicate_threshold θ (evd.map Prod.fst)) x y =
        true := by
  have h2 : out ∈ (runSlides pid (replicate_threshold θ (evd.map Prod.fst))
      cmpf rej (evd.map Prod.fst) (initState evd) slides).2 := hout
  have hspec := runSlides_outcomes pid
    (replicate_threshold θ (evd.map Prod.fst)) cmpf rej (evd.map Prod.fst)
    slides (initState evd) out h2
  cases hp : out.processed with
  | false =>
    rw [hspec.2 hp] at hrec
    simp at hrec
  | true =>
    rw [(hspec.1 hp).2.2.2] at hrec
    obtain ⟨t, ht, rfl⟩ := List.mem_map.mp hrec
    exact CoincidentNTuples_pairwise _ _ _ _ _ (List.mem_filter.mp ht).1

theorem recorded_ntuples_pairwise_coincident_witness :
    ((ligolw_thinca 0 [("A", [⟨"A", 0, 0⟩]), ("B", [⟨"B", 1000, 1⟩])] [(0, [("A", 0), ("B", 0)])] 1 cmpNever rejNever).2.headD default) ∈ (ligolw_thinca 0 [("A", [⟨"A", 0, 0⟩]), ("B", [⟨"B", 1000, 1⟩])] [(0, [("A", 0), ("B", 0)])] 1 cmpNever rejNever).2 ∧
      (((ligolw_thinca 0 [("A", [⟨"A", 0, 0⟩]), ("B", [⟨"B", 1000, 1⟩])] [(0, [("A", 0), ("B", 0)])] 1 cmpNever rejNever).2.headD default).records.headD default) ∈ ((ligolw_thinca 0 [("A", [⟨"A", 0, 0⟩]), ("B", [⟨"B", 1000, 1⟩])] [(0, [("A", 0), ("B", 0)])] 1 cmpNever rejNever).2.headD default).records ∧
      (((ligolw_thinca 0 [("A", [⟨"A", 0, 0⟩]), ("B", [⟨"B", 1000, 1⟩])] [(0, [("A", 0), ("B", 0)])] 1 cmpNever rejNever).2.headD default).records.headD default).events.Pairwise fun x y =>
        pairCoinc cmpNever (replicate_threshold 1 ["A", "B"]) x y = true :=
  ⟨by decide, by decide,
    recorded_ntuples_pairwise_coincident 0
      [("A", [⟨"A", 0, 0⟩]), ("B", [⟨"B", 1000, 1⟩])]
      [(0, [("A", 0), ("B", 0)])] 1 cmpNever rejNever
      ((ligolw_thinca 0 [("A", [⟨"A", 0, 0⟩]), ("B", [⟨"B", 1000, 1⟩])] [(0, [("A", 0), ("B", 0)])] 1 cmpNever rejNever).2.headD default)
      (((ligolw_thinca 0 [("A", [⟨"A", 0, 0⟩]), ("B", [⟨"B", 1000, 1⟩])] [(0, [("A", 0), ("B", 0)])] 1 cmpNever rejNever).2.headD default).records.headD default)
      (by decide) (by decide)⟩
